import Mathlib

/-!
Verification of the box-matching, encoding and non-maximum-suppression
subsystem of the PazTOYlab repository (the `paz.backend.boxes` utilities),
together with the autoencoder construction-time mode validation.

The implementation module `paz/backend/boxes.py` itself is not part of the
provided sources; only its test suite (`src/paz/tests/paz/backend/boxes_test.py`)
is.  The definitions below are therefore modelled from the specification
(spec.md, sections 4.1-4.5), and validated against the concrete numeric
fixtures that the repository test suite pins (see
`compute_iou_matches_repo_fixture` and the match-collision analysis below).
All arithmetic is done exactly over `ℚ`; the floating-point `log`/`exp` used
by the box encoder is abstracted into an explicit function pair, constrained
only where needed by an inverse hypothesis.
-/

/-- Modelled from the spec: a box in corner form, 4 scalars
`(x_min, y_min, x_max, y_max)` (spec section 3 data model).  Coordinates are
exact rationals standing for the numeric array entries. -/
structure Box where
  x_min : ℚ
  y_min : ℚ
  x_max : ℚ
  y_max : ℚ
deriving DecidableEq

instance : Inhabited Box := ⟨⟨0, 0, 0, 0⟩⟩

/-- Modelled from the spec: a box in center form, 4 scalars `(cx, cy, w, h)`
(spec section 3 data model). -/
structure CBox where
  cx : ℚ
  cy : ℚ
  w : ℚ
  h : ℚ
deriving DecidableEq

/-- Area of a corner-form box, `(x_max - x_min) * (y_max - y_min)`. -/
def Box.area (b : Box) : ℚ :=
  (b.x_max - b.x_min) * (b.y_max - b.y_min)

/-- Modelled from the spec: `to_center_form` from `paz.backend.boxes`
(spec section 4.1), elementwise on one box: center is the midpoint of the
corners, width/height the corner differences. -/
def to_center_form (b : Box) : CBox :=
  { cx := (b.x_min + b.x_max) / 2
    cy := (b.y_min + b.y_max) / 2
    w := b.x_max - b.x_min
    h := b.y_max - b.y_min }

/-- Modelled from the spec: `to_corner_form` from `paz.backend.boxes`
(spec section 4.1), elementwise on one box. -/
def to_corner_form (c : CBox) : Box :=
  { x_min := c.cx - c.w / 2
    y_min := c.cy - c.h / 2
    x_max := c.cx + c.w / 2
    y_max := c.cy + c.h / 2 }

/-- Modelled from the spec: IoU of two corner-form boxes (spec section 4.1):
intersection is the clipped overlap of corner coordinates, union is
`area(a) + area(b) - intersection`, and the denominator is guarded so that
degenerate boxes yield IoU 0 rather than a division by zero. -/
def iou (a b : Box) : ℚ :=
  let dx := min a.x_max b.x_max - max a.x_min b.x_min
  let dy := min a.y_max b.y_max - max a.y_min b.y_min
  let inter := max dx 0 * max dy 0
  let uni := a.area + b.area - inter
  if uni = 0 then 0 else inter / uni

/-- Modelled from the spec: `compute_iou(box, boxes)` from `paz.backend.boxes`
(spec section 4.1): IoU of one box against a sequence of boxes. -/
def compute_iou (box : Box) (boxes : List Box) : List ℚ :=
  boxes.map (iou box)

/-- Modelled from the spec: `compute_ious(boxes_A, boxes_B)` from
`paz.backend.boxes` (spec section 4.1): the pairwise IoU matrix, one row per
box of the first argument. -/
def compute_ious (boxes_A boxes_B : List Box) : List (List ℚ) :=
  boxes_A.map (fun a => compute_iou a boxes_B)

/-- Score of a detection row for class `c` (entry `c` of its per-class score
vector, 0 when out of range — the dense array always has `numClasses`
columns, so in-range access is the only case exercised). -/
def scoreAt (r : Box × List ℚ) (c : ℕ) : ℚ :=
  r.2.getD c 0

/-- Stable insertion of a row into a list sorted by descending class-`c`
score: the row passes earlier rows only when its score is strictly greater,
so rows with equal scores keep their original relative order (spec section
4.5 tie-break policy). -/
def insertRow (c : ℕ) (r : Box × List ℚ) :
    List (Box × List ℚ) → List (Box × List ℚ)
  | [] => [r]
  | s :: ss => if scoreAt s c < scoreAt r c then r :: s :: ss
               else s :: insertRow c r ss

/-- Modelled from the spec: stable sort of candidate rows by descending
class-`c` score (spec section 4.5 step 2). -/
def sortByScoreDesc (c : ℕ) (l : List (Box × List ℚ)) : List (Box × List ℚ) :=
  l.foldl (fun acc r => insertRow c r acc) []

/-- Modelled from the spec: one fuel-indexed step of greedy suppression
(spec section 4.5 step 3): select the current highest-scoring row, drop every
remaining row whose IoU with it exceeds the suppression threshold (rows with
IoU equal to the threshold are kept), and recurse.  Each step consumes at
least one row, so fuel equal to the initial list length always suffices. -/
def nmsGreedyFuel (t : ℚ) : ℕ → List (Box × List ℚ) → List (Box × List ℚ)
  | 0, _ => []
  | Nat.succ _, [] => []
  | Nat.succ n, r :: rs =>
      r :: nmsGreedyFuel t n (rs.filter (fun s => decide (iou r.1 s.1 ≤ t)))

/-- Greedy suppression run with sufficient fuel. -/
def nmsGreedy (t : ℚ) (l : List (Box × List ℚ)) : List (Box × List ℚ) :=
  nmsGreedyFuel t l.length l

/-- Number of class columns of the dense detection array (the score-vector
width of its rows; 0 when the array is empty). -/
def numClasses (box_data : List (Box × List ℚ)) : ℕ :=
  (box_data.headD (default, [])).2.length

/-- Modelled from the spec: the per-class NMS pass (spec section 4.5 steps
1-4): keep rows whose class-`c` score is at least epsilon, sort them by
descending class-`c` score, greedily suppress, and cap the number of
selections. -/
def nms_class_pass (box_data : List (Box × List ℚ)) (t ε : ℚ) (top_k : ℕ)
    (c : ℕ) : List (Box × List ℚ) :=
  (nmsGreedy t (sortByScoreDesc c
    (box_data.filter (fun r => decide (ε ≤ scoreAt r c))))).take top_k

/-- Modelled from the spec: the concatenation across classes (in class order,
class 0 included) of `(selected row, class label)` pairs (spec section 4.5
output description). -/
def nmsPairs (box_data : List (Box × List ℚ)) (t ε : ℚ) (top_k : ℕ) :
    List ((Box × List ℚ) × ℕ) :=
  ((List.range (numClasses box_data)).map
    (fun c => (nms_class_pass box_data t ε top_k c).map (fun r => (r, c)))).flatten

/-- Modelled from the spec: `nms_per_class(box_data, nms_thresh, epsilon,
top_k)` from `paz.backend.boxes`, returning the selected rows and their class
labels as two parallel sequences. -/
def nms_per_class (box_data : List (Box × List ℚ)) (t ε : ℚ) (top_k : ℕ) :
    List (Box × List ℚ) × List ℕ :=
  ((nmsPairs box_data t ε top_k).map Prod.fst,
   (nmsPairs box_data t ε top_k).map Prod.snd)

/-- Modelled from the spec: `merge_nms_box_with_class(box_data,
class_labels)` from `paz.backend.boxes` (spec section 4.5): each output row
keeps its box and carries a score vector that is zero everywhere except at
the retained class's index, where it holds the row-wise sum of the row's
score vector. -/
def merge_nms_box_with_class (box_data : List (Box × List ℚ))
    (class_labels : List ℕ) : List (Box × List ℚ) :=
  List.zipWith
    (fun r c => (r.1,
      (List.range r.2.length).map (fun i => if i = c then r.2.sum else 0)))
    box_data class_labels

/-- Index of the first maximal element, scanning a list left to right with a
running best index and best value; ties keep the earlier index, matching
`np.argmax`'s first-occurrence rule (spec section 4.3 edge case). -/
def argmaxFrom : ℕ → ℕ → ℚ → List ℚ → ℕ
  | _, bi, _, [] => bi
  | i, bi, bv, x :: xs =>
      if bv < x then argmaxFrom (i + 1) i x xs else argmaxFrom (i + 1) bi bv xs

/-- Modelled from the spec: `np.argmax` over a vector of IoUs, returning the
first index attaining the maximum (0 on an empty vector). -/
def argmaxIdx : List ℚ → ℕ
  | [] => 0
  | x :: xs => argmaxFrom 1 0 x xs

/-- Modelled from the spec: `np.max` over a nonempty vector (0 on an empty
vector, a case the matcher never exercises for nonempty ground truth). -/
def listMax : List ℚ → ℚ
  | [] => 0
  | x :: xs => xs.foldl max x

/-- Column `p` of an IoU matrix stored as a list of rows. -/
def column (m : List (List ℚ)) (p : ℕ) : List ℚ :=
  m.map (fun row => row.getD p 0)

/-- Modelled from the spec: the full IoU matrix between the ground-truth
boxes and the priors converted to corner form (spec section 4.3, step 1).
One row per ground truth, one column per prior. -/
def match_ious (gts : List (Box × ℚ)) (priors : List CBox) : List (List ℚ) :=
  compute_ious (gts.map Prod.fst) (priors.map to_corner_form)

/-- Modelled from the spec: for ground truth `t`, the prior with maximum IoU
(best-prior-per-truth, spec section 4.3 step 2; ties to the first index). -/
def best_prior_for_truth (gts : List (Box × ℚ)) (priors : List CBox) (t : ℕ) : ℕ :=
  argmaxIdx ((match_ious gts priors).getD t [])

/-- Modelled from the spec: for prior `p`, the ground truth with maximum IoU
(best-truth-per-prior, spec section 4.3 step 3; ties to the first index). -/
def best_truth_for_prior (gts : List (Box × ℚ)) (priors : List CBox) (p : ℕ) : ℕ :=
  argmaxIdx (column (match_ious gts priors) p)

/-- Modelled from the spec: the maximum IoU seen by prior `p` over all ground
truths (used for the background threshold test, spec section 4.3 step 5). -/
def per_prior_max_iou (gts : List (Box × ℚ)) (priors : List CBox) (p : ℕ) : ℚ :=
  listMax (column (match_ious gts priors) p)

/-- Modelled from the spec: the per-prior assigned-truth index array after the
best-prior-per-truth assignments are forced in (spec section 4.3 step 4).
The forcing is a scatter write in increasing ground-truth order, so when two
ground truths share the same best prior the later index overwrites the
earlier one — exactly the collision behaviour pinned by the repository test
`test_match_box`, whose five ground truths collapse to two distinct matched
boxes. -/
def forced_truth_index (gts : List (Box × ℚ)) (priors : List CBox) : ℕ → ℕ :=
  (List.range gts.length).foldl
    (fun f t => Function.update f (best_prior_for_truth gts priors t) t)
    (best_truth_for_prior gts priors)

/-- Modelled from the spec: the per-prior max-IoU array with the forced
entries marked (set to 2, i.e. above any meaningful threshold) so that forced
assignments survive the background threshold test regardless of threshold. -/
def forced_iou (gts : List (Box × ℚ)) (priors : List CBox) : ℕ → ℚ :=
  (List.range gts.length).foldl
    (fun f t => Function.update f (best_prior_for_truth gts priors t) 2)
    (per_prior_max_iou gts priors)

/-- Modelled from the spec: `match(boxes_with_label, prior_boxes)` from
`paz.backend.boxes` (spec section 4.3).  One output row per prior, carrying
the assigned ground-truth box and its label; rows whose resulting IoU falls
below the threshold keep the assigned box coordinates but get the background
label 0 (the repository test `test_match_box` pins that the box coordinates
are kept, since `np.unique` of all match rows yields no all-zero row). -/
def matchBoxes (gts : List (Box × ℚ)) (priors : List CBox) (thr : ℚ) :
    List (Box × ℚ) :=
  (List.range priors.length).map (fun p =>
    let g := gts.getD (forced_truth_index gts priors p) ⟨default, 0⟩
    (g.1, if forced_iou gts priors p < thr then 0 else g.2))

/-- Modelled from the spec: a regression-offset row produced by `encode`
(spec section 4.4): two scaled center offsets and two scaled log-size
offsets. -/
structure OffsetBox where
  gx : ℚ
  gy : ℚ
  gw : ℚ
  gh : ℚ
deriving DecidableEq

/-- Modelled from the spec: the 4-element variance vector
`[var_cx, var_cy, var_w, var_h]` scaling the regression targets. -/
structure Variances where
  v_cx : ℚ
  v_cy : ℚ
  v_w : ℚ
  v_h : ℚ
deriving DecidableEq

/-- Modelled from the spec: encode one matched row against its prior
(spec section 4.4): `((gt_center - prior_center) / prior_size) / variance_xy`
for the center offsets and `log(gt_size / prior_size) / variance_wh` for the
size offsets; the label passes through unchanged.  The floating-point
logarithm is abstracted as the function argument `lg`. -/
def encodeRow (lg : ℚ → ℚ) (v : Variances) (m : Box × ℚ) (p : CBox) :
    OffsetBox × ℚ :=
  let c := to_center_form m.1
  (⟨(c.cx - p.cx) / p.w / v.v_cx,
    (c.cy - p.cy) / p.h / v.v_cy,
    lg (c.w / p.w) / v.v_w,
    lg (c.h / p.h) / v.v_h⟩, m.2)

/-- Modelled from the spec: `encode(matches, priors, variances)` from
`paz.backend.boxes`, applied row-by-row over the per-prior match array. -/
def encode (lg : ℚ → ℚ) (matched : List (Box × ℚ)) (priors : List CBox)
    (v : Variances) : List (OffsetBox × ℚ) :=
  List.zipWith (encodeRow lg v) matched priors

/-- Modelled from the spec: decode one offset row against its prior, the
exact algebraic inverse of `encodeRow` given the same variances; the
floating-point exponential is abstracted as the function argument `ex`. -/
def decodeRow (ex : ℚ → ℚ) (v : Variances) (e : OffsetBox × ℚ) (p : CBox) :
    Box × ℚ :=
  (to_corner_form ⟨e.1.gx * v.v_cx * p.w + p.cx,
                   e.1.gy * v.v_cy * p.h + p.cy,
                   ex (e.1.gw * v.v_w) * p.w,
                   ex (e.1.gh * v.v_h) * p.h⟩, e.2)

/-- Modelled from the spec: `decode(encoded, priors, variances)` from
`paz.backend.boxes`, applied row-by-row. -/
def decode (ex : ℚ → ℚ) (encoded : List (OffsetBox × ℚ)) (priors : List CBox)
    (v : Variances) : List (Box × ℚ) :=
  List.zipWith (decodeRow ex v) encoded priors

/-- Rounding to the nearest integer, as a map on the rationals.  It agrees
with `np.round` at every value whose distance to the nearest integer is
below 1/2, which is the only regime the round-trip theorem exercises (there
the decoded values are already exact integers). -/
def roundQ (x : ℚ) : ℚ :=
  ((round x : ℤ) : ℚ)

/-- Coordinate-wise rounding of a corner-form box. -/
def roundBox (b : Box) : Box :=
  ⟨roundQ b.x_min, roundQ b.y_min, roundQ b.x_max, roundQ b.y_max⟩

/-- Coordinate-wise rounding of the box part of every row (labels are left
untouched; they are integral pass-through values anyway). -/
def roundRows (l : List (Box × ℚ)) : List (Box × ℚ) :=
  l.map (fun r => (roundBox r.1, r.2))

/-- A shallow stand-in for a constructed Keras model: the claims only concern
construction-time validation, so the embedding records the model name and
the input/output tensor names that `CNN_AUTOENCODER` wires up per mode
(source: `src/paz/examples/action_scores/models/autoencoder.py`). -/
structure KerasModel where
  name : String
  inputName : String
  outputName : String
deriving DecidableEq

/-- Embedding of `CNN_AUTOENCODER(input_shape, latent_dimension, mode)` from
`src/paz/examples/action_scores/models/autoencoder.py`: the mode string is
validated by the first statement of the function — any mode outside
`full`/`encoder`/`decoder` raises `ValueError('Invalid mode.')` before any
layer is constructed (here: an `Except.error` is returned before any model
value is built) — and otherwise the model for the requested part is
assembled, named `CNN-AUTOENCODER-<latent>` with a `-encoder`/`-decoder`
suffix for the partial modes. -/
def CNN_AUTOENCODER (input_shape : List ℕ) (latent_dimension : ℕ)
    (mode : String) : Except String KerasModel :=
  if mode ∉ ["full", "encoder", "decoder"] then
    Except.error "Invalid mode."
  else
    let base_name := "CNN-AUTOENCODER-" ++ toString latent_dimension
    if mode = "encoder" then
      Except.ok ⟨base_name ++ "-encoder", "image", "latent_vector"⟩
    else if mode = "decoder" then
      Except.ok ⟨base_name ++ "-decoder", "input", "label"⟩
    else
      Except.ok ⟨base_name, "image", "label"⟩

/-- Validation of the IoU model against the repository's own test fixture
(`boxes_test.py`, fixtures `boxes`/`target` and `test_compute_iou`):
`compute_iou(boxes_A[1], boxes_B)` reproduces the pinned values
`[0.48706725, 0.787838, 0.70033113, 0.70739083, 0.39040922]` to within 1e-5,
with the exact rational values listed. -/
theorem compute_iou_matches_repo_fixture :
    compute_iou ⟨42, 78, 186, 126⟩
      [⟨39, 63, 203, 112⟩, ⟨49, 75, 203, 125⟩, ⟨31, 69, 201, 125⟩,
       ⟨50, 72, 197, 121⟩, ⟨35, 51, 196, 110⟩] =
      [4896/10052, 6439/8173, 6768/9664, 5848/8267, 4608/11803] ∧
    |4896/10052 - (0.48706725 : ℚ)| < 1/100000 ∧
    |6439/8173 - (0.787838 : ℚ)| < 1/100000 ∧
    |6768/9664 - (0.70033113 : ℚ)| < 1/100000 ∧
    |5848/8267 - (0.70739083 : ℚ)| < 1/100000 ∧
    |4608/11803 - (0.39040922 : ℚ)| < 1/100000 := by
  refine ⟨?_, ?_, ?_, ?_, ?_, ?_⟩
  · norm_num [compute_iou, iou, Box.area, min_def, max_def]
  all_goals rw [abs_sub_lt_iff]; norm_num

/-- General exact inverse over the rationals: converting a corner-form box to
center form and back is the identity, with no rounding involved. -/
theorem to_corner_form_to_center_form (b : Box) :
    to_corner_form (to_center_form b) = b := by
  obtain ⟨p, q, r, s⟩ := b
  simp only [to_center_form, to_corner_form, Box.mk.injEq]
  refine ⟨by ring, by ring, by ring, by ring⟩

/-- C6: for every box with integer corner coordinates satisfying
`x_min ≤ x_max` and `y_min ≤ y_max`, `to_corner_form (to_center_form b)` is
exactly `b` (the identity is in fact exact over all rational coordinates, so
in particular on integer ones). -/
theorem to_center_form_roundtrip_exact (a b c d : ℤ)
    (h1 : (a : ℚ) ≤ (c : ℚ)) (h2 : (b : ℚ) ≤ (d : ℚ)) :
    to_corner_form (to_center_form ⟨(a : ℚ), (b : ℚ), (c : ℚ), (d : ℚ)⟩) =
      ⟨(a : ℚ), (b : ℚ), (c : ℚ), (d : ℚ)⟩ :=
  to_corner_form_to_center_form _

/-- Witness for `to_center_form_roundtrip_exact` at the concrete integer box
`(1, 2, 3, 4)`. -/
theorem to_center_form_roundtrip_exact_witness :
    ((1 : ℤ) : ℚ) ≤ ((3 : ℤ) : ℚ) ∧ ((2 : ℤ) : ℚ) ≤ ((4 : ℤ) : ℚ) ∧
    to_corner_form (to_center_form ⟨((1 : ℤ) : ℚ), ((2 : ℤ) : ℚ), ((3 : ℤ) : ℚ), ((4 : ℤ) : ℚ)⟩) =
      ⟨((1 : ℤ) : ℚ), ((2 : ℤ) : ℚ), ((3 : ℤ) : ℚ), ((4 : ℤ) : ℚ)⟩ :=
  ⟨by norm_num, by norm_num,
    to_center_form_roundtrip_exact 1 2 3 4 (by norm_num) (by norm_num)⟩

/-- C8: whenever at least one of the two boxes has zero or negative area, the
IoU is exactly 0; the guarded denominator means no unguarded division is ever
performed (the quotient is only formed when the union is nonzero, and in the
degenerate case the clipped intersection is already 0). -/
theorem iou_eq_zero_of_degenerate (a b : Box)
    (h : a.area ≤ 0 ∨ b.area ≤ 0) : iou a b = 0 := by
  have p1 := min_le_left a.x_max b.x_max
  have p2 := le_max_left a.x_min b.x_min
  have p3 := min_le_left a.y_max b.y_max
  have p4 := le_max_left a.y_min b.y_min
  have q1 := min_le_right a.x_max b.x_max
  have q2 := le_max_right a.x_min b.x_min
  have q3 := min_le_right a.y_max b.y_max
  have q4 := le_max_right a.y_min b.y_min
  have hX : min a.x_max b.x_max - max a.x_min b.x_min ≤ 0 ∨
      min a.y_max b.y_max - max a.y_min b.y_min ≤ 0 := by
    rcases h with h | h <;> rcases mul_nonpos_iff.mp h with ⟨h1, h2⟩ | ⟨h1, h2⟩
    · right; linarith
    · left; linarith
    · right; linarith
    · left; linarith
  have hinter : max (min a.x_max b.x_max - max a.x_min b.x_min) 0 *
      max (min a.y_max b.y_max - max a.y_min b.y_min) 0 = 0 := by
    rcases hX with h | h
    · rw [max_eq_right h, zero_mul]
    · rw [max_eq_right h, mul_zero]
  simp only [iou]
  rw [hinter]
  split
  · rfl
  · exact zero_div _

/-- Witness for `iou_eq_zero_of_degenerate`: the zero-width box
`(0, 0, 0, 5)` against the unit box `(0, 0, 1, 1)` gives IoU 0. -/
theorem iou_eq_zero_of_degenerate_witness :
    Box.area ⟨0, 0, 0, 5⟩ ≤ 0 ∧ iou ⟨0, 0, 0, 5⟩ ⟨0, 0, 1, 1⟩ = 0 :=
  ⟨by norm_num [Box.area],
    iou_eq_zero_of_degenerate _ _ (Or.inl (by norm_num [Box.area]))⟩

/-- The running argmax scan returns either the incoming best index or an
index of one of the scanned elements. -/
theorem argmaxFrom_cases (xs : List ℚ) :
    ∀ (i bi : ℕ) (bv : ℚ), argmaxFrom i bi bv xs = bi ∨
      (i ≤ argmaxFrom i bi bv xs ∧ argmaxFrom i bi bv xs < i + xs.length) := by
  induction xs with
  | nil => intro i bi bv; left; rfl
  | cons x xs ih =>
      intro i bi bv
      simp only [argmaxFrom]
      split
      · rcases ih (i + 1) i x with h | ⟨h1, h2⟩
        · right; rw [h]; simp only [List.length_cons]; omega
        · right; constructor
          · omega
          · simp only [List.length_cons]; omega
      · rcases ih (i + 1) bi bv with h | ⟨h1, h2⟩
        · left; exact h
        · right; constructor
          · omega
          · simp only [List.length_cons]; omega

/-- On a nonempty list, `argmaxIdx` returns a valid index. -/
theorem argmaxIdx_lt (l : List ℚ) (h : l ≠ []) : argmaxIdx l < l.length := by
  cases l with
  | nil => exact absurd rfl h
  | cons x xs =>
      simp only [argmaxIdx, List.length_cons]
      rcases argmaxFrom_cases xs 1 0 x with h | ⟨h1, h2⟩
      · omega
      · omega

/-- A scatter-write fold leaves untouched every index no element writes to. -/
theorem foldl_update_of_forall_ne {α : Type} (g : ℕ → ℕ) (v : ℕ → α)
    (L : List ℕ) (f : ℕ → α) (j : ℕ) (h : ∀ t ∈ L, g t ≠ j) :
    (L.foldl (fun f t => Function.update f (g t) (v t)) f) j = f j := by
  induction L generalizing f with
  | nil => rfl
  | cons a L ih =>
      simp only [List.foldl_cons]
      rw [ih _ (fun t ht => h t (List.mem_cons_of_mem a ht))]
      exact Function.update_noteq (Ne.symm (h a (List.mem_cons_self a L))) _ _

/-- A scatter-write fold stores `v t` at index `j` when `t` is the unique
element of the write list targeting `j`. -/
theorem foldl_update_of_uniq {α : Type} (g : ℕ → ℕ) (v : ℕ → α)
    (L : List ℕ) (f : ℕ → α) (t j : ℕ) (ht : t ∈ L) (hj : g t = j)
    (huniq : ∀ s ∈ L, g s = j → s = t) :
    (L.foldl (fun f t => Function.update f (g t) (v t)) f) j = v t := by
  induction L generalizing f with
  | nil => exact absurd ht (List.not_mem_nil t)
  | cons a L ih =>
      simp only [List.foldl_cons]
      by_cases hmem : t ∈ L
      · exact ih _ hmem (fun s hs hgs => huniq s (List.mem_cons_of_mem a hs) hgs)
      · have hat : a = t := by
          rcases List.mem_cons.mp ht with h | h
          · exact h.symm
          · exact absurd h hmem
        have hnone : ∀ s ∈ L, g s ≠ j := by
          intro s hs hgs
          exact hmem ((huniq s (List.mem_cons_of_mem a hs) hgs) ▸ hs)
        rw [foldl_update_of_forall_ne _ _ _ _ _ hnone, hat, hj]
        exact Function.update_same j (v t) f

/-- A scatter-write fold whose base and written values are all below `T`
produces values below `T` everywhere. -/
theorem foldl_update_lt (g : ℕ → ℕ) (v : ℕ → ℕ) (T : ℕ) (L : List ℕ)
    (f : ℕ → ℕ) (hv : ∀ t ∈ L, v t < T) (hf : ∀ p, f p < T) :
    ∀ p, (L.foldl (fun f t => Function.update f (g t) (v t)) f) p < T := by
  induction L generalizing f with
  | nil => exact hf
  | cons a L ih =>
      intro p
      simp only [List.foldl_cons]
      refine ih _ (fun t ht => hv t (List.mem_cons_of_mem a ht)) (fun q => ?_) p
      by_cases hq : q = g a
      · subst hq
        rw [Function.update_same]
        exact hv a (List.mem_cons_self a L)
      · rw [Function.update_noteq hq]
        exact hf q

/-- The match array has one row per prior. -/
theorem matchBoxes_length (gts : List (Box × ℚ)) (priors : List CBox) (thr : ℚ) :
    (matchBoxes gts priors thr).length = priors.length := by
  simp [matchBoxes]

/-- Row `p` of the match array: the box of the assigned ground truth, with the
label zeroed out when the (possibly forced) IoU is below the threshold. -/
theorem matchBoxes_get (gts : List (Box × ℚ)) (priors : List CBox) (thr : ℚ)
    (p : ℕ) (h : p < (matchBoxes gts priors thr).length) :
    (matchBoxes gts priors thr).get ⟨p, h⟩ =
      ((gts.getD (forced_truth_index gts priors p) ⟨default, 0⟩).1,
        if forced_iou gts priors p < thr then 0
        else (gts.getD (forced_truth_index gts priors p) ⟨default, 0⟩).2) := by
  simp [matchBoxes]

/-- Row `t` of the IoU matrix has one entry per prior. -/
theorem match_ious_row_length (gts : List (Box × ℚ)) (priors : List CBox)
    (t : ℕ) (ht : t < gts.length) :
    ((match_ious gts priors).getD t []).length = priors.length := by
  unfold match_ious compute_ious
  rw [List.getD_eq_getElem _ _ (by simpa using ht)]
  simp [compute_iou]

/-- C1 amended: if no two distinct ground truths share the same best prior,
then every ground-truth box appears as the assigned target of at least one
prior in the match array, regardless of the threshold (the forced
best-prior-per-truth scatter writes then never collide). -/
theorem match_covers_truths_of_distinct_best_priors
    (gts : List (Box × ℚ)) (priors : List CBox) (thr : ℚ)
    (hp : priors ≠ [])
    (hinj : ∀ t1 < gts.length, ∀ t2 < gts.length,
        best_prior_for_truth gts priors t1 = best_prior_for_truth gts priors t2 →
        t1 = t2) :
    ∀ t < gts.length, ∃ row ∈ matchBoxes gts priors thr,
      row.1 = (gts.getD t ⟨default, 0⟩).1 := by
  intro t ht
  have hrowlen := match_ious_row_length gts priors t ht
  have hpos : 0 < priors.length := List.length_pos.mpr hp
  have hjP : best_prior_for_truth gts priors t < priors.length := by
    have hne : (match_ious gts priors).getD t [] ≠ [] := by
      apply List.ne_nil_of_length_pos
      rw [hrowlen]
      exact hpos
    have hlt := argmaxIdx_lt _ hne
    rw [hrowlen] at hlt
    exact hlt
  have hforced : forced_truth_index gts priors (best_prior_for_truth gts priors t) = t := by
    unfold forced_truth_index
    exact foldl_update_of_uniq (best_prior_for_truth gts priors) (fun t => t)
      (List.range gts.length) (best_truth_for_prior gts priors) t _
      (List.mem_range.mpr ht) rfl
      (fun s hs hgs => hinj s (List.mem_range.mp hs) t ht hgs)
  have hlen : best_prior_for_truth gts priors t < (matchBoxes gts priors thr).length := by
    rw [matchBoxes_length]
    exact hjP
  refine ⟨(matchBoxes gts priors thr).get ⟨best_prior_for_truth gts priors t, hlen⟩,
    List.get_mem _ _ _, ?_⟩
  rw [matchBoxes_get, hforced]

/-- Witness for `match_covers_truths_of_distinct_best_priors`: one ground
truth, one prior; the hypotheses hold and the ground-truth box appears in the
match array. -/
theorem match_covers_truths_witness :
    ([⟨1/2, 1/2, 1, 1⟩] : List CBox) ≠ [] ∧
    (∀ t1 < ([((⟨0, 0, 1, 1⟩ : Box), (5 : ℚ))]).length,
      ∀ t2 < ([((⟨0, 0, 1, 1⟩ : Box), (5 : ℚ))]).length,
        best_prior_for_truth [(⟨0, 0, 1, 1⟩, 5)] [⟨1/2, 1/2, 1, 1⟩] t1 =
          best_prior_for_truth [(⟨0, 0, 1, 1⟩, 5)] [⟨1/2, 1/2, 1, 1⟩] t2 →
        t1 = t2) ∧
    ∀ t < ([((⟨0, 0, 1, 1⟩ : Box), (5 : ℚ))]).length,
      ∃ row ∈ matchBoxes [(⟨0, 0, 1, 1⟩, 5)] [⟨1/2, 1/2, 1, 1⟩] (1/2),
        row.1 = (([((⟨0, 0, 1, 1⟩ : Box), (5 : ℚ))]).getD t ⟨default, 0⟩).1 := by
  refine ⟨by simp, ?_, ?_⟩
  · intro t1 h1 t2 h2 _
    simp only [List.length_cons, List.length_nil] at h1 h2
    omega
  · exact match_covers_truths_of_distinct_best_priors _ _ _ (by simp)
      (fun t1 h1 t2 h2 _ => by
        simp only [List.length_cons, List.length_nil] at h1 h2
        omega)

/-- C1 counterexample: three ground truths far outside the (normalized)
priors, so every IoU is 0 and all three best-prior-per-truth indices tie to
prior 0.  The forced scatter writes collide and the middle ground truth
`(20, 20, 21, 21)` is the assigned target of no prior, although both the
ground-truth array and the prior set are nonempty.  This mirrors the
repository test `test_match_box`, where five ground truths collapse to two
distinct matched boxes. -/
theorem match_orphaned_truth_counterexample :
    matchBoxes
        [(⟨10, 10, 11, 11⟩, 1), (⟨20, 20, 21, 21⟩, 2), (⟨30, 30, 31, 31⟩, 3)]
        [⟨1/2, 1/2, 1, 1⟩, ⟨1/2, 1/2, 1/2, 1/2⟩] (1/2) =
      [(⟨30, 30, 31, 31⟩, 3), (⟨10, 10, 11, 11⟩, 0)] ∧
    ¬ ∃ row ∈ matchBoxes
        [(⟨10, 10, 11, 11⟩, 1), (⟨20, 20, 21, 21⟩, 2), (⟨30, 30, 31, 31⟩, 3)]
        [⟨1/2, 1/2, 1, 1⟩, ⟨1/2, 1/2, 1/2, 1/2⟩] (1/2),
      row.1 = (⟨20, 20, 21, 21⟩ : Box) := by
  have h : matchBoxes
      [(⟨10, 10, 11, 11⟩, 1), (⟨20, 20, 21, 21⟩, 2), (⟨30, 30, 31, 31⟩, 3)]
      [⟨1/2, 1/2, 1, 1⟩, ⟨1/2, 1/2, 1/2, 1/2⟩] (1/2) =
      [(⟨30, 30, 31, 31⟩, 3), (⟨10, 10, 11, 11⟩, 0)] := by
    norm_num [matchBoxes, forced_truth_index, forced_iou, best_prior_for_truth,
      best_truth_for_prior, per_prior_max_iou, match_ious, column, compute_ious,
      compute_iou, iou, Box.area, to_corner_form, argmaxIdx, argmaxFrom, listMax,
      List.range_succ, Function.update, min_def, max_def]
  refine ⟨h, ?_⟩
  rw [h]
  rintro ⟨row, hmem, heq⟩
  simp only [List.mem_cons, List.not_mem_nil, or_false] at hmem
  rcases hmem with rfl | rfl <;> simp only [Box.mk.injEq] at heq <;> norm_num at heq

/-- Zipping a zip against the same second list fuses into one zip. -/
theorem zipWith_zipWith_same {α β γ δ : Type} (f : γ → β → δ) (g : α → β → γ)
    (as : List α) (bs : List β) :
    List.zipWith f (List.zipWith g as bs) bs =
      List.zipWith (fun a b => f (g a b) b) as bs := by
  induction as generalizing bs with
  | nil => simp
  | cons a as ih => cases bs <;> simp [ih]

/-- Row-level round trip: decoding an encoded row against the same prior and
variances recovers the row exactly, provided the row's box is non-degenerate,
the prior has positive size, the variances are nonzero, and the abstracted
exp/log pair inverts on positive arguments. -/
theorem decodeRow_encodeRow (lg ex : ℚ → ℚ) (v : Variances)
    (q1 q2 q3 q4 lab : ℚ) (p : CBox)
    (hinv : ∀ x : ℚ, 0 < x → ex (lg x) = x)
    (hw : q1 < q3) (hh : q2 < q4)
    (hpw : 0 < p.w) (hph : 0 < p.h)
    (hvcx : v.v_cx ≠ 0) (hvcy : v.v_cy ≠ 0) (hvw : v.v_w ≠ 0) (hvh : v.v_h ≠ 0) :
    decodeRow ex v (encodeRow lg v (⟨q1, q2, q3, q4⟩, lab) p) p =
      (⟨q1, q2, q3, q4⟩, lab) := by
  have hpw' : p.w ≠ 0 := ne_of_gt hpw
  have hph' : p.h ≠ 0 := ne_of_gt hph
  have e3 : ex (lg ((q3 - q1) / p.w) / v.v_w * v.v_w) * p.w = q3 - q1 := by
    rw [div_mul_cancel₀ _ hvw, hinv _ (div_pos (by linarith) hpw),
      div_mul_cancel₀ _ hpw']
  have e4 : ex (lg ((q4 - q2) / p.h) / v.v_h * v.v_h) * p.h = q4 - q2 := by
    rw [div_mul_cancel₀ _ hvh, hinv _ (div_pos (by linarith) hph),
      div_mul_cancel₀ _ hph']
  simp only [decodeRow, encodeRow, to_center_form, to_corner_form,
    Prod.mk.injEq, Box.mk.injEq]
  refine ⟨⟨?_, ?_, ?_, ?_⟩, trivial⟩
  · rw [e3]; field_simp; ring
  · rw [e4]; field_simp; ring
  · rw [e3]; field_simp; ring
  · rw [e4]; field_simp; ring

/-- The forced per-prior truth index always names a valid ground truth when
the ground-truth array is nonempty. -/
theorem forced_truth_index_lt (gts : List (Box × ℚ)) (priors : List CBox)
    (hne : gts ≠ []) :
    ∀ p, forced_truth_index gts priors p < gts.length := by
  unfold forced_truth_index
  apply foldl_update_lt
  · intro t ht
    exact List.mem_range.mp ht
  · intro p
    unfold best_truth_for_prior
    have hlen : (column (match_ious gts priors) p).length = gts.length := by
      simp [column, match_ious, compute_ious]
    have hlt := argmaxIdx_lt (column (match_ious gts priors) p) (by
      apply List.ne_nil_of_length_pos
      rw [hlen]
      exact List.length_pos.mpr hne)
    rw [hlen] at hlt
    exact hlt

/-- Every row of the match array carries the box of some ground truth (the
background threshold only zeroes the label, never the box coordinates). -/
theorem matchBoxes_row_box (gts : List (Box × ℚ)) (priors : List CBox)
    (thr : ℚ) (hne : gts ≠ []) :
    ∀ row ∈ matchBoxes gts priors thr, ∃ g ∈ gts, row.1 = g.1 := by
  intro row hrow
  simp only [matchBoxes, List.mem_map, List.mem_range] at hrow
  obtain ⟨p, hp, hrow⟩ := hrow
  have hidx := forced_truth_index_lt gts priors hne p
  refine ⟨gts.get ⟨forced_truth_index gts priors p, hidx⟩, List.get_mem _ _ _, ?_⟩
  rw [← hrow]
  show (gts.getD (forced_truth_index gts priors p) (default, 0)).1 = _
  rw [List.getD_eq_getElem gts (default, 0) hidx, List.get_eq_getElem]

/-- List-level round trip: decoding the encoding of a list of matched rows
against the same priors and variances, then rounding coordinate-wise,
recovers the rows exactly, provided every row has an integral non-degenerate
box, every prior has positive size, and the variances are nonzero. -/
theorem roundRows_decode_encode (lg ex : ℚ → ℚ) (v : Variances)
    (hinv : ∀ x : ℚ, 0 < x → ex (lg x) = x)
    (hvcx : v.v_cx ≠ 0) (hvcy : v.v_cy ≠ 0) (hvw : v.v_w ≠ 0) (hvh : v.v_h ≠ 0) :
    ∀ (ms : List (Box × ℚ)) (ps : List CBox),
      (∀ m ∈ ms, (∃ a b c d : ℤ, m.1 = ⟨(a : ℚ), (b : ℚ), (c : ℚ), (d : ℚ)⟩) ∧
        m.1.x_min < m.1.x_max ∧ m.1.y_min < m.1.y_max) →
      (∀ p ∈ ps, 0 < p.w ∧ 0 < p.h) →
      ms.length ≤ ps.length →
      roundRows (decode ex (encode lg ms ps v) ps v) = ms := by
  intro ms
  induction ms with
  | nil => intro ps _ _ _; simp [roundRows, decode, encode]
  | cons m ms ih =>
      intro ps hms hps hlen
      cases ps with
      | nil => simp at hlen
      | cons p ps =>
          obtain ⟨⟨a, b, c, d, hbox⟩, hw, hh⟩ := hms m (List.mem_cons_self m ms)
          obtain ⟨bx, lab⟩ := m
          simp only at hbox
          subst hbox
          obtain ⟨hpw, hph⟩ := hps p (List.mem_cons_self p ps)
          simp only [decode, encode, List.zipWith_cons_cons, roundRows, List.map_cons]
          have hrow := decodeRow_encodeRow lg ex v (a : ℚ) (b : ℚ) (c : ℚ) (d : ℚ)
            lab p hinv (by simpa using hw) (by simpa using hh) hpw hph
            hvcx hvcy hvw hvh
          rw [hrow]
          have hround : roundBox ⟨(a : ℚ), (b : ℚ), (c : ℚ), (d : ℚ)⟩ =
              ⟨(a : ℚ), (b : ℚ), (c : ℚ), (d : ℚ)⟩ := by
            simp [roundBox, roundQ, round_intCast]
          rw [hround]
          have htail : roundRows (decode ex (encode lg ms ps v) ps v) = ms :=
            ih ps (fun x hx => hms x (List.mem_cons_of_mem _ hx))
              (fun x hx => hps x (List.mem_cons_of_mem p hx))
              (by simpa using Nat.le_of_succ_le_succ (by simpa using hlen))
          simp only [roundRows, decode, encode] at htail
          rw [htail]

/-- C2: for matches produced by `match` from nonempty integral non-degenerate
ground truths, positive-size priors and nonzero variances, rounding
`decode(encode(matches, priors, variances), priors, variances)`
coordinate-wise gives back exactly the matches array (the decoded rows are in
fact already exactly equal to the matches, rounding only absorbs
floating-point error in the original) — `exp`/`log` are abstracted as any
pair inverting on positive arguments. -/
theorem encode_decode_roundtrip (lg ex : ℚ → ℚ) (v : Variances)
    (gts : List (Box × ℚ)) (priors : List CBox) (thr : ℚ)
    (hinv : ∀ x : ℚ, 0 < x → ex (lg x) = x)
    (hgts : ∀ g ∈ gts, (∃ a b c d : ℤ, g.1 = ⟨(a : ℚ), (b : ℚ), (c : ℚ), (d : ℚ)⟩) ∧
      g.1.x_min < g.1.x_max ∧ g.1.y_min < g.1.y_max)
    (hne : gts ≠ [])
    (hpr : ∀ p ∈ priors, 0 < p.w ∧ 0 < p.h)
    (hvcx : v.v_cx ≠ 0) (hvcy : v.v_cy ≠ 0) (hvw : v.v_w ≠ 0) (hvh : v.v_h ≠ 0) :
    roundRows (decode ex (encode lg (matchBoxes gts priors thr) priors v) priors v) =
      matchBoxes gts priors thr := by
  apply roundRows_decode_encode lg ex v hinv hvcx hvcy hvw hvh
  · intro m hm
    obtain ⟨g, hg, hgm⟩ := matchBoxes_row_box gts priors thr hne m hm
    rw [hgm]
    exact hgts g hg
  · exact hpr
  · rw [matchBoxes_length]

/-- Witness for `encode_decode_roundtrip`: one integral ground truth, one
positive prior, unit variances, identity `exp`/`log` stand-ins. -/
theorem encode_decode_roundtrip_witness :
    (∀ x : ℚ, 0 < x → id (id x) = x) ∧
    (∀ g ∈ ([((⟨0, 0, 2, 2⟩ : Box), (1 : ℚ))]),
      (∃ a b c d : ℤ, g.1 = (⟨(a : ℚ), (b : ℚ), (c : ℚ), (d : ℚ)⟩ : Box)) ∧
      g.1.x_min < g.1.x_max ∧ g.1.y_min < g.1.y_max) ∧
    ([((⟨0, 0, 2, 2⟩ : Box), (1 : ℚ))]) ≠ [] ∧
    (∀ p ∈ ([⟨1, 1, 2, 2⟩] : List CBox), 0 < p.w ∧ 0 < p.h) ∧
    roundRows (decode id
        (encode id (matchBoxes [(⟨0, 0, 2, 2⟩, 1)] [⟨1, 1, 2, 2⟩] (1/2))
          [⟨1, 1, 2, 2⟩] ⟨1, 1, 1, 1⟩)
        [⟨1, 1, 2, 2⟩] ⟨1, 1, 1, 1⟩) =
      matchBoxes [(⟨0, 0, 2, 2⟩, 1)] [⟨1, 1, 2, 2⟩] (1/2) := by
  refine ⟨fun x _ => rfl, ?_, by simp, ?_, ?_⟩
  · intro g hg
    simp only [List.mem_cons, List.not_mem_nil, or_false] at hg
    subst hg
    exact ⟨⟨0, 0, 2, 2, by norm_num⟩, by norm_num, by norm_num⟩
  · intro p hp
    simp only [List.mem_cons, List.not_mem_nil, or_false] at hp
    subst hp
    norm_num
  · apply encode_decode_roundtrip id id ⟨1, 1, 1, 1⟩ _ _ (1/2) (fun x _ => rfl)
    · intro g hg
      simp only [List.mem_cons, List.not_mem_nil, or_false] at hg
      subst hg
      exact ⟨⟨0, 0, 2, 2, by norm_num⟩, by norm_num, by norm_num⟩
    · simp
    · intro p hp
      simp only [List.mem_cons, List.not_mem_nil, or_false] at hp
      subst hp
      norm_num
    all_goals norm_num

/-- C2 counterexample: the round-trip claim fails for a match array whose
ground-truth box has a non-integer coordinate.  With one ground truth
`(1/2, 0, 2, 2)` and one prior `(1, 1, 2, 2)` (IoU 3/4, so the row is matched
with its label kept), the decode-encode round trip is exact, but rounding
coordinate-wise moves `1/2` to an integer, so the rounded result is not equal
to the matches array.  Here `exp`/`log` are the identity stand-ins, and even
this ideal choice cannot make the claim hold. -/
theorem encode_decode_roundtrip_counterexample :
    roundRows (decode id
        (encode id (matchBoxes [(⟨1/2, 0, 2, 2⟩, 1)] [⟨1, 1, 2, 2⟩] (1/2))
          [⟨1, 1, 2, 2⟩] ⟨1, 1, 1, 1⟩)
        [⟨1, 1, 2, 2⟩] ⟨1, 1, 1, 1⟩) ≠
      matchBoxes [(⟨1/2, 0, 2, 2⟩, 1)] [⟨1, 1, 2, 2⟩] (1/2) := by
  have h1 : matchBoxes [(⟨1/2, 0, 2, 2⟩, 1)] [⟨1, 1, 2, 2⟩] (1/2) =
      [(⟨1/2, 0, 2, 2⟩, 1)] := by
    norm_num [matchBoxes, forced_truth_index, forced_iou, best_prior_for_truth,
      best_truth_for_prior, per_prior_max_iou, match_ious, column, compute_ious,
      compute_iou, iou, Box.area, to_corner_form, argmaxIdx, argmaxFrom, listMax,
      List.range_succ, Function.update, min_def, max_def]
  rw [h1]
  have h2 : roundRows (decode id
      (encode id [(⟨1/2, 0, 2, 2⟩, 1)] [⟨1, 1, 2, 2⟩] ⟨1, 1, 1, 1⟩)
      [⟨1, 1, 2, 2⟩] ⟨1, 1, 1, 1⟩) = [(⟨1, 0, 2, 2⟩, 1)] := by
    norm_num [roundRows, decode, encode, decodeRow, encodeRow, to_center_form,
      to_corner_form, roundBox, roundQ, round_eq, Box.mk.injEq]
  rw [h2]
  simp only [ne_eq, List.cons.injEq, Prod.mk.injEq, Box.mk.injEq]
  norm_num

/-- C3 counterexample: on the exact input quoted by the specification,
`compute_iou([54, 66, 198, 114], [[39, 63, 203, 112]])` evaluates to
`1656/2081 ≈ 0.7958`, which is not approximately `0.4995` even with the
generous tolerance `0.01` (the repository fixture value `0.48706725` belongs
to a different box pair, namely `boxes_A[1]` against `boxes_B[0]`). -/
theorem compute_iou_spec_literal_counterexample :
    compute_iou ⟨54, 66, 198, 114⟩ [⟨39, 63, 203, 112⟩] = [1656/2081] ∧
    ¬ |(1656/2081 : ℚ) - 0.4995| < 1/100 := by
  constructor
  · norm_num [compute_iou, iou, Box.area, min_def, max_def]
  · exact not_lt.mpr (le_abs.mpr (Or.inl (by norm_num)))

/-- C3 amended: `compute_iou([54, 66, 198, 114], [[39, 63, 203, 112]])`
returns a value approximately equal to `0.79577` (exactly `1656/2081`). -/
theorem compute_iou_spec_literal_amended :
    compute_iou ⟨54, 66, 198, 114⟩ [⟨39, 63, 203, 112⟩] = [1656/2081] ∧
    |(1656/2081 : ℚ) - 0.79577| < 1/100000 := by
  constructor
  · norm_num [compute_iou, iou, Box.area, min_def, max_def]
  · rw [abs_sub_lt_iff]; norm_num

/-- IoU is symmetric. -/
theorem iou_symm (a b : Box) : iou a b = iou b a := by
  simp only [iou]
  rw [min_comm a.x_max b.x_max, max_comm a.x_min b.x_min,
    min_comm a.y_max b.y_max, max_comm a.y_min b.y_min,
    add_comm a.area b.area]

/-- Greedy suppression is insensitive to the exact fuel value, as long as the
fuel covers the list length. -/
theorem nmsGreedyFuel_congr (t : ℚ) :
    ∀ (n m : ℕ) (l : List (Box × List ℚ)), l.length ≤ n → l.length ≤ m →
      nmsGreedyFuel t n l = nmsGreedyFuel t m l := by
  intro n
  induction n with
  | zero =>
      intro m l hn _
      have : l = [] := List.eq_nil_of_length_eq_zero (Nat.le_zero.mp hn)
      subst this
      cases m <;> rfl
  | succ n ih =>
      intro m l hn hm
      cases l with
      | nil => cases m <;> rfl
      | cons r rs =>
          cases m with
          | zero => simp at hm
          | succ m =>
              simp only [nmsGreedyFuel]
              congr 1
              refine ih m _ ?_ ?_
              · exact le_trans (List.length_filter_le _ _)
                  (Nat.le_of_succ_le_succ (by simpa using hn))
              · exact le_trans (List.length_filter_le _ _)
                  (Nat.le_of_succ_le_succ (by simpa using hm))

/-- Unfolding equation for greedy suppression on an empty candidate list. -/
theorem nmsGreedy_nil (t : ℚ) : nmsGreedy t [] = [] := rfl

/-- Unfolding equation for greedy suppression: select the head, suppress the
rows whose IoU with it exceeds the threshold, recurse. -/
theorem nmsGreedy_cons (t : ℚ) (r : Box × List ℚ) (rs : List (Box × List ℚ)) :
    nmsGreedy t (r :: rs) =
      r :: nmsGreedy t (rs.filter (fun s => decide (iou r.1 s.1 ≤ t))) := by
  unfold nmsGreedy
  simp only [List.length_cons, nmsGreedyFuel]
  congr 1
  exact nmsGreedyFuel_congr t rs.length _ _ (List.length_filter_le _ _) le_rfl

/-- Greedy suppression only returns rows of its input. -/
theorem nmsGreedyFuel_subset (t : ℚ) :
    ∀ (n : ℕ) (l : List (Box × List ℚ)), nmsGreedyFuel t n l ⊆ l := by
  intro n
  induction n with
  | zero => intro l x hx; simp [nmsGreedyFuel] at hx
  | succ n ih =>
      intro l
      cases l with
      | nil => intro x hx; simp [nmsGreedyFuel] at hx
      | cons r rs =>
          intro x hx
          simp only [nmsGreedyFuel, List.mem_cons] at hx
          rcases hx with rfl | hx
          · exact List.mem_cons_self _ _
          · exact List.mem_cons_of_mem _ (List.mem_of_mem_filter (ih _ hx))

/-- Any two rows selected by greedy suppression have IoU at most the
suppression threshold. -/
theorem nmsGreedyFuel_pairwise (t : ℚ) :
    ∀ (n : ℕ) (l : List (Box × List ℚ)),
      (nmsGreedyFuel t n l).Pairwise (fun a b => iou a.1 b.1 ≤ t) := by
  intro n
  induction n with
  | zero => intro l; simp [nmsGreedyFuel]
  | succ n ih =>
      intro l
      cases l with
      | nil => simp [nmsGreedyFuel]
      | cons r rs =>
          simp only [nmsGreedyFuel]
          refine List.Pairwise.cons ?_ (ih _)
          intro b hb
          have hbf := nmsGreedyFuel_subset t n _ hb
          exact of_decide_eq_true (List.mem_filter.mp hbf).2

/-- Membership in a stable insertion. -/
theorem mem_insertRow (c : ℕ) (r x : Box × List ℚ) :
    ∀ l, x ∈ insertRow c r l → x = r ∨ x ∈ l := by
  intro l
  induction l with
  | nil =>
      intro hx
      simp only [insertRow, List.mem_cons, List.not_mem_nil, or_false] at hx
      exact Or.inl hx
  | cons s ss ih =>
      intro hx
      simp only [insertRow] at hx
      split at hx
      · rcases List.mem_cons.mp hx with rfl | h
        · exact Or.inl rfl
        · exact Or.inr h
      · rcases List.mem_cons.mp hx with rfl | h
        · exact Or.inr (List.mem_cons_self _ _)
        · rcases ih h with h | h
          · exact Or.inl h
          · exact Or.inr (List.mem_cons_of_mem _ h)

/-- Membership after the insertion-sort fold. -/
theorem mem_sort_fold (c : ℕ) :
    ∀ (l acc : List (Box × List ℚ)) (x : Box × List ℚ),
      x ∈ l.foldl (fun a r => insertRow c r a) acc → x ∈ acc ∨ x ∈ l := by
  intro l
  induction l with
  | nil => intro acc x hx; exact Or.inl hx
  | cons r l ih =>
      intro acc x hx
      simp only [List.foldl_cons] at hx
      rcases ih _ x hx with h | h
      · rcases mem_insertRow c r x acc h with h | h
        · exact Or.inr (h ▸ List.mem_cons_self _ _)
        · exact Or.inl h
      · exact Or.inr (List.mem_cons_of_mem _ h)

/-- The stable sort only returns rows of its input. -/
theorem mem_sortByScoreDesc (c : ℕ) (l : List (Box × List ℚ))
    (x : Box × List ℚ) (hx : x ∈ sortByScoreDesc c l) : x ∈ l := by
  rcases mem_sort_fold c l [] x hx with h | h
  · simp at h
  · exact h

/-- Stable insertion grows the length by one. -/
theorem length_insertRow (c : ℕ) (r : Box × List ℚ) :
    ∀ l, (insertRow c r l).length = l.length + 1 := by
  intro l
  induction l with
  | nil => rfl
  | cons s ss ih =>
      simp only [insertRow]
      split
      · simp
      · simp [ih]

/-- The insertion-sort fold preserves total length. -/
theorem length_sort_fold (c : ℕ) :
    ∀ (l acc : List (Box × List ℚ)),
      (l.foldl (fun a r => insertRow c r a) acc).length = acc.length + l.length := by
  intro l
  induction l with
  | nil => intro acc; simp
  | cons r l ih =>
      intro acc
      simp only [List.foldl_cons]
      rw [ih]
      rw [length_insertRow]
      simp only [List.length_cons]
      omega

/-- The stable sort preserves length. -/
theorem length_sortByScoreDesc (c : ℕ) (l : List (Box × List ℚ)) :
    (sortByScoreDesc c l).length = l.length := by
  unfold sortByScoreDesc
  rw [length_sort_fold]
  simp

/-- Every row selected by a per-class pass comes from the input array and
passed the epsilon score filter for that class. -/
theorem nms_class_pass_mem (bd : List (Box × List ℚ)) (t ε : ℚ) (k c : ℕ) :
    ∀ row ∈ nms_class_pass bd t ε k c, row ∈ bd ∧ ε ≤ scoreAt row c := by
  intro row hrow
  unfold nms_class_pass nmsGreedy at hrow
  have h1 := (List.take_sublist k _).subset hrow
  have h2 := nmsGreedyFuel_subset t _ _ h1
  have h3 := mem_sortByScoreDesc c _ _ h2
  have h4 := List.mem_filter.mp h3
  exact ⟨h4.1, of_decide_eq_true h4.2⟩

/-- Every pair emitted by the NMS engine consists of an input row that passed
the epsilon filter for its class label, with the label below the class
count. -/
theorem nmsPairs_mem (bd : List (Box × List ℚ)) (t ε : ℚ) (k : ℕ) :
    ∀ pr ∈ nmsPairs bd t ε k,
      pr.1 ∈ bd ∧ ε ≤ scoreAt pr.1 pr.2 ∧ pr.2 < numClasses bd := by
  intro pr hpr
  unfold nmsPairs at hpr
  rw [List.mem_flatten] at hpr
  obtain ⟨seg, hseg, hmem⟩ := hpr
  rw [List.mem_map] at hseg
  obtain ⟨c, hc, rfl⟩ := hseg
  rw [List.mem_map] at hmem
  obtain ⟨r, hr, rfl⟩ := hmem
  have h := nms_class_pass_mem bd t ε k c r hr
  exact ⟨h.1, h.2, List.mem_range.mp hc⟩

/-- Zipping a list of pairs split into its two projections reassembles the
pairs. -/
theorem zipWith_map_fst_snd {α β γ : Type} (f : α → β → γ) :
    ∀ (l : List (α × β)),
      List.zipWith f (l.map Prod.fst) (l.map Prod.snd) =
        l.map (fun p => f p.1 p.2) := by
  intro l
  induction l with
  | nil => rfl
  | cons p l ih => simp [ih]

/-- Two distinct selected pairs with the same class label have IoU at most
the suppression threshold (within one class segment this is the greedy
invariant; across segments the labels differ). -/
theorem nmsPairs_pairwise (bd : List (Box × List ℚ)) (t ε : ℚ) (k : ℕ) :
    (nmsPairs bd t ε k).Pairwise (fun a b => a.2 = b.2 → iou a.1.1 b.1.1 ≤ t) := by
  unfold nmsPairs
  rw [List.pairwise_flatten]
  constructor
  · intro seg hseg
    rw [List.mem_map] at hseg
    obtain ⟨c, _, rfl⟩ := hseg
    rw [List.pairwise_map]
    have hp : (nms_class_pass bd t ε k c).Pairwise (fun a b => iou a.1 b.1 ≤ t) := by
      unfold nms_class_pass nmsGreedy
      exact List.Pairwise.sublist (List.take_sublist _ _) (nmsGreedyFuel_pairwise t _ _)
    exact hp.imp (fun h => fun _ => h)
  · rw [List.pairwise_map]
    have hlt : (List.range (numClasses bd)).Pairwise (· < ·) := List.pairwise_lt_range _
    refine hlt.imp ?_
    intro c1 c2 hc x hx y hy hxy
    rw [List.mem_map] at hx hy
    obtain ⟨r1, _, rfl⟩ := hx
    obtain ⟨r2, _, rfl⟩ := hy
    exact absurd hxy (Nat.ne_of_lt hc)

/-- C4 amended: for every dense detection array, IoU suppression threshold,
score epsilon and detections cap, `nms_per_class` returns as many boxes as
class labels, and any two distinct selected rows carrying the same class
label have pairwise IoU at most (not strictly below) the suppression
threshold: the greedy step suppresses rows whose IoU with the selected row
exceeds the threshold, so rows at exactly the threshold survive. -/
theorem nms_per_class_parallel_and_same_class_iou_le
    (bd : List (Box × List ℚ)) (t ε : ℚ) (k : ℕ) :
    (nms_per_class bd t ε k).1.length = (nms_per_class bd t ε k).2.length ∧
    ∀ i j, ∀ (hi : i < (nms_per_class bd t ε k).1.length)
      (hj : j < (nms_per_class bd t ε k).1.length), i ≠ j →
      (nms_per_class bd t ε k).2.getD i 0 = (nms_per_class bd t ε k).2.getD j 0 →
      iou ((nms_per_class bd t ε k).1.get ⟨i, hi⟩).1
        ((nms_per_class bd t ε k).1.get ⟨j, hj⟩).1 ≤ t := by
  constructor
  · simp [nms_per_class]
  · intro i j hi hj hne hlab
    have hi' : i < (nmsPairs bd t ε k).length := by
      simpa [nms_per_class] using hi
    have hj' : j < (nmsPairs bd t ε k).length := by
      simpa [nms_per_class] using hj
    have e1 : (nms_per_class bd t ε k).2.getD i 0 =
        ((nmsPairs bd t ε k).get ⟨i, hi'⟩).2 := by
      show ((nmsPairs bd t ε k).map Prod.snd).getD i 0 = _
      rw [List.getD_eq_getElem _ _ (by simpa using hi'), List.getElem_map,
        List.get_eq_getElem]
    have e2 : (nms_per_class bd t ε k).2.getD j 0 =
        ((nmsPairs bd t ε k).get ⟨j, hj'⟩).2 := by
      show ((nmsPairs bd t ε k).map Prod.snd).getD j 0 = _
      rw [List.getD_eq_getElem _ _ (by simpa using hj'), List.getElem_map,
        List.get_eq_getElem]
    have b1 : (nms_per_class bd t ε k).1.get ⟨i, hi⟩ =
        ((nmsPairs bd t ε k).get ⟨i, hi'⟩).1 := by
      show ((nmsPairs bd t ε k).map Prod.fst).get _ = _
      simp only [List.get_eq_getElem, List.getElem_map]
    have b2 : (nms_per_class bd t ε k).1.get ⟨j, hj⟩ =
        ((nmsPairs bd t ε k).get ⟨j, hj'⟩).1 := by
      show ((nmsPairs bd t ε k).map Prod.fst).get _ = _
      simp only [List.get_eq_getElem, List.getElem_map]
    have hpw := nmsPairs_pairwise bd t ε k
    rw [List.pairwise_iff_getElem] at hpw
    rw [e1, e2] at hlab
    rw [b1, b2]
    rcases Nat.lt_or_ge i j with hij | hij
    · have h := hpw i j hi' hj' hij
      simp only [List.get_eq_getElem]
      exact h (by simpa [List.get_eq_getElem] using hlab)
    · have hij2 : j < i := lt_of_le_of_ne hij (Ne.symm hne)
      have h := hpw j i hj' hi' hij2
      rw [iou_symm]
      simp only [List.get_eq_getElem]
      exact h (by simpa [List.get_eq_getElem] using hlab.symm)

/-- C4 counterexample to strictness: two boxes of the same class with IoU
exactly equal to the suppression threshold 1/2 are both selected, so the
claim's strict inequality fails at the boundary (the greedy step only
suppresses when the IoU strictly exceeds the threshold). -/
theorem nms_strict_iou_counterexample :
    (nms_per_class [(⟨0, 0, 2, 1⟩, [9/10]), (⟨0, 0, 1, 1⟩, [8/10])]
        (1/2) (1/100) 200).1.map Prod.fst = [⟨0, 0, 2, 1⟩, ⟨0, 0, 1, 1⟩] ∧
    (nms_per_class [(⟨0, 0, 2, 1⟩, [9/10]), (⟨0, 0, 1, 1⟩, [8/10])]
        (1/2) (1/100) 200).2 = [0, 0] ∧
    (⟨0, 0, 2, 1⟩ : Box) ≠ ⟨0, 0, 1, 1⟩ ∧
    iou ⟨0, 0, 2, 1⟩ ⟨0, 0, 1, 1⟩ = 1/2 ∧
    ¬ iou ⟨0, 0, 2, 1⟩ ⟨0, 0, 1, 1⟩ < 1/2 := by
  have hiou : iou (⟨0, 0, 2, 1⟩ : Box) ⟨0, 0, 1, 1⟩ = 1/2 := by
    norm_num [iou, Box.area, min_def, max_def]
  refine ⟨?_, ?_, by simp [Box.mk.injEq], hiou, by rw [hiou]; norm_num⟩
  · norm_num [nms_per_class, nmsPairs, nms_class_pass, numClasses,
      nmsGreedy_cons, nmsGreedy_nil, sortByScoreDesc, insertRow, scoreAt,
      iou, Box.area, List.range_succ, min_def, max_def, List.filter_cons,
      decide_eq_true_eq, List.take_of_length_le]
  · norm_num [nms_per_class, nmsPairs, nms_class_pass, numClasses,
      nmsGreedy_cons, nmsGreedy_nil, sortByScoreDesc, insertRow, scoreAt,
      iou, Box.area, List.range_succ, min_def, max_def, List.filter_cons,
      decide_eq_true_eq, List.take_of_length_le]

/-- Witness for `nms_per_class_parallel_and_same_class_iou_le`: two disjoint
boxes in one class, both selected with label 0; the box/label counts agree
and the selected pair's IoU (0) is at most the threshold. -/
theorem nms_per_class_parallel_witness :
    (nms_per_class [(⟨0, 0, 1, 1⟩, [9/10]), (⟨5, 5, 6, 6⟩, [8/10])]
        (9/20) (1/100) 200).1.length =
      (nms_per_class [(⟨0, 0, 1, 1⟩, [9/10]), (⟨5, 5, 6, 6⟩, [8/10])]
        (9/20) (1/100) 200).2.length ∧
    ∃ (hi : 0 < (nms_per_class [(⟨0, 0, 1, 1⟩, [9/10]), (⟨5, 5, 6, 6⟩, [8/10])]
        (9/20) (1/100) 200).1.length)
      (hj : 1 < (nms_per_class [(⟨0, 0, 1, 1⟩, [9/10]), (⟨5, 5, 6, 6⟩, [8/10])]
        (9/20) (1/100) 200).1.length),
      iou ((nms_per_class [(⟨0, 0, 1, 1⟩, [9/10]), (⟨5, 5, 6, 6⟩, [8/10])]
          (9/20) (1/100) 200).1.get ⟨0, hi⟩).1
        ((nms_per_class [(⟨0, 0, 1, 1⟩, [9/10]), (⟨5, 5, 6, 6⟩, [8/10])]
          (9/20) (1/100) 200).1.get ⟨1, hj⟩).1 ≤ 9/20 := by
  have heval : nms_per_class [(⟨0, 0, 1, 1⟩, [9/10]), (⟨5, 5, 6, 6⟩, [8/10])]
      (9/20) (1/100) 200 =
      ([(⟨0, 0, 1, 1⟩, [9/10]), (⟨5, 5, 6, 6⟩, [8/10])], [0, 0]) := by
    norm_num [nms_per_class, nmsPairs, nms_class_pass, numClasses,
      nmsGreedy_cons, nmsGreedy_nil, sortByScoreDesc, insertRow, scoreAt,
      iou, Box.area, List.range_succ, min_def, max_def, List.filter_cons,
      decide_eq_true_eq, List.take_of_length_le]
  refine ⟨(nms_per_class_parallel_and_same_class_iou_le _ _ _ _).1, ?_⟩
  have hi : (0 : ℕ) < (nms_per_class [(⟨0, 0, 1, 1⟩, [9/10]), (⟨5, 5, 6, 6⟩, [8/10])]
      (9/20) (1/100) 200).1.length := by
    rw [heval]
    norm_num
  have hj : (1 : ℕ) < (nms_per_class [(⟨0, 0, 1, 1⟩, [9/10]), (⟨5, 5, 6, 6⟩, [8/10])]
      (9/20) (1/100) 200).1.length := by
    rw [heval]
    norm_num
  refine ⟨hi, hj, ?_⟩
  apply (nms_per_class_parallel_and_same_class_iou_le _ (9/20) (1/100) 200).2
    0 1 hi hj (by norm_num)
  rw [heval]
  rfl

/-- C5: for every NMS output, each merged row's score vector is the row-wise
sum of the pre-merge score vector at the retained class's index and exactly
zero at every other index; the retained slot exists and its value is
strictly positive (hence the unique non-zero slot), provided epsilon is
positive and the input scores are nonnegative. -/
theorem merge_nms_one_hot (bd : List (Box × List ℚ)) (t ε : ℚ) (k : ℕ)
    (hε : 0 < ε) (hnn : ∀ r ∈ bd, ∀ s ∈ r.2, 0 ≤ s) :
    merge_nms_box_with_class (nms_per_class bd t ε k).1 (nms_per_class bd t ε k).2 =
      (nmsPairs bd t ε k).map (fun pr => (pr.1.1,
        (List.range pr.1.2.length).map (fun i => if i = pr.2 then pr.1.2.sum else 0))) ∧
    ∀ pr ∈ nmsPairs bd t ε k,
      pr.2 < pr.1.2.length ∧
      ((List.range pr.1.2.length).map
        (fun i => if i = pr.2 then pr.1.2.sum else 0)).getD pr.2 0 = pr.1.2.sum ∧
      0 < pr.1.2.sum ∧
      ∀ j, j ≠ pr.2 →
        ((List.range pr.1.2.length).map
          (fun i => if i = pr.2 then pr.1.2.sum else 0)).getD j 0 = 0 := by
  constructor
  · unfold merge_nms_box_with_class nms_per_class
    rw [zipWith_map_fst_snd]
  · intro pr hpr
    obtain ⟨hmem, hscore, _⟩ := nmsPairs_mem bd t ε k pr hpr
    have hc : pr.2 < pr.1.2.length := by
      by_contra hcon
      push_neg at hcon
      have hz : scoreAt pr.1 pr.2 = 0 := by
        unfold scoreAt
        exact List.getD_eq_default _ _ hcon
      rw [hz] at hscore
      linarith
    have hm : pr.1.2.getD pr.2 0 ∈ pr.1.2 := by
      rw [List.getD_eq_getElem _ _ hc]
      exact List.getElem_mem _
    have hsum : 0 < pr.1.2.sum := by
      have hle := List.single_le_sum (hnn pr.1 hmem) _ hm
      have hpos : (0 : ℚ) < pr.1.2.getD pr.2 0 := lt_of_lt_of_le hε hscore
      linarith
    refine ⟨hc, ?_, hsum, ?_⟩
    · rw [List.getD_eq_getElem _ _ (by simpa using hc), List.getElem_map,
        List.getElem_range]
      simp
    · intro j hj
      by_cases hjlen : j < pr.1.2.length
      · rw [List.getD_eq_getElem _ _ (by simpa using hjlen), List.getElem_map,
          List.getElem_range]
        simp [hj]
      · push_neg at hjlen
        apply List.getD_eq_default
        simpa using hjlen

/-- Witness for `merge_nms_one_hot`: one row with two nonnegative scores and
a positive epsilon. -/
theorem merge_nms_one_hot_witness :
    (0 : ℚ) < 1/100 ∧
    (∀ r ∈ ([(((⟨0, 0, 1, 1⟩ : Box), [1/2, 1/4]))] : List (Box × List ℚ)),
      ∀ s ∈ r.2, 0 ≤ s) ∧
    (merge_nms_box_with_class
        (nms_per_class [(⟨0, 0, 1, 1⟩, [1/2, 1/4])] (9/20) (1/100) 200).1
        (nms_per_class [(⟨0, 0, 1, 1⟩, [1/2, 1/4])] (9/20) (1/100) 200).2 =
      (nmsPairs [(⟨0, 0, 1, 1⟩, [1/2, 1/4])] (9/20) (1/100) 200).map
        (fun pr => (pr.1.1,
          (List.range pr.1.2.length).map
            (fun i => if i = pr.2 then pr.1.2.sum else 0))) ∧
    ∀ pr ∈ nmsPairs [(⟨0, 0, 1, 1⟩, [1/2, 1/4])] (9/20) (1/100) 200,
      pr.2 < pr.1.2.length ∧
      ((List.range pr.1.2.length).map
        (fun i => if i = pr.2 then pr.1.2.sum else 0)).getD pr.2 0 = pr.1.2.sum ∧
      0 < pr.1.2.sum ∧
      ∀ j, j ≠ pr.2 →
        ((List.range pr.1.2.length).map
          (fun i => if i = pr.2 then pr.1.2.sum else 0)).getD j 0 = 0) := by
  have hnn : ∀ r ∈ ([(((⟨0, 0, 1, 1⟩ : Box), [1/2, 1/4]))] : List (Box × List ℚ)),
      ∀ s ∈ r.2, 0 ≤ s := by
    intro r hr s hs
    simp only [List.mem_cons, List.not_mem_nil, or_false] at hr
    subst hr
    simp only [List.mem_cons, List.not_mem_nil, or_false] at hs
    rcases hs with rfl | rfl <;> norm_num
  exact ⟨by norm_num, hnn,
    merge_nms_one_hot [(⟨0, 0, 1, 1⟩, [1/2, 1/4])] (9/20) (1/100) 200
      (by norm_num) hnn⟩

/-- C10: suppression is applied to every class column independently,
including column 0 — whenever the detections cap is positive and some row
has a class-`c` score at or above epsilon (with `c` a valid column), label
`c` appears in the output.  On a concrete two-class input both boxes are
selected under both class labels, so the labels take every value in
`0..C-1`, column 0 is not skipped, and the same input box appears more than
once under different labels. -/
theorem nms_per_class_all_classes :
    (∀ (bd : List (Box × List ℚ)) (t ε : ℚ) (k c : ℕ), 0 < k →
      c < numClasses bd → (∃ r ∈ bd, ε ≤ scoreAt r c) →
      c ∈ (nms_per_class bd t ε k).2) ∧
    (nms_per_class [(⟨0, 0, 1, 1⟩, [9/10, 8/10]), (⟨5, 5, 6, 6⟩, [7/10, 6/10])]
        (9/20) (1/100) 200).2 = [0, 0, 1, 1] ∧
    (nms_per_class [(⟨0, 0, 1, 1⟩, [9/10, 8/10]), (⟨5, 5, 6, 6⟩, [7/10, 6/10])]
        (9/20) (1/100) 200).1.map Prod.fst =
      [⟨0, 0, 1, 1⟩, ⟨5, 5, 6, 6⟩, ⟨0, 0, 1, 1⟩, ⟨5, 5, 6, 6⟩] := by
  refine ⟨?_, ?_, ?_⟩
  · rintro bd t ε k c hk hc ⟨r, hr, hscore⟩
    have hcand : r ∈ bd.filter (fun x => decide (ε ≤ scoreAt x c)) :=
      List.mem_filter.mpr ⟨hr, decide_eq_true hscore⟩
    have hlen : 0 < (sortByScoreDesc c
        (bd.filter (fun x => decide (ε ≤ scoreAt x c)))).length := by
      rw [length_sortByScoreDesc]
      exact List.length_pos_of_mem hcand
    obtain ⟨s, ss, hss⟩ : ∃ s ss, sortByScoreDesc c
        (bd.filter (fun x => decide (ε ≤ scoreAt x c))) = s :: ss := by
      cases h : sortByScoreDesc c (bd.filter (fun x => decide (ε ≤ scoreAt x c))) with
      | nil => rw [h] at hlen; simp at hlen
      | cons s ss => exact ⟨s, ss, rfl⟩
    have hpass : ∃ x xs, nms_class_pass bd t ε k c = x :: xs := by
      unfold nms_class_pass
      rw [hss, nmsGreedy_cons]
      cases k with
      | zero => omega
      | succ k => exact ⟨s, _, List.take_succ_cons⟩
    obtain ⟨x, xs, hx⟩ := hpass
    show c ∈ (nmsPairs bd t ε k).map Prod.snd
    rw [List.mem_map]
    refine ⟨(x, c), ?_, rfl⟩
    unfold nmsPairs
    rw [List.mem_flatten]
    refine ⟨(nms_class_pass bd t ε k c).map (fun r => (r, c)), ?_, ?_⟩
    · rw [List.mem_map]
      exact ⟨c, List.mem_range.mpr hc, rfl⟩
    · rw [hx]
      exact List.mem_cons_self _ _
  · norm_num [nms_per_class, nmsPairs, nms_class_pass, numClasses,
      nmsGreedy_cons, nmsGreedy_nil, sortByScoreDesc, insertRow, scoreAt,
      iou, Box.area, List.range_succ, min_def, max_def, List.filter_cons,
      decide_eq_true_eq, List.take_of_length_le]
  · norm_num [nms_per_class, nmsPairs, nms_class_pass, numClasses,
      nmsGreedy_cons, nmsGreedy_nil, sortByScoreDesc, insertRow, scoreAt,
      iou, Box.area, List.range_succ, min_def, max_def, List.filter_cons,
      decide_eq_true_eq, List.take_of_length_le]

/-- Witness for `nms_per_class_all_classes`: a one-row one-class input where
the cap is positive and the row passes the epsilon filter for class 0, so
label 0 appears in the output. -/
theorem nms_per_class_all_classes_witness :
    (0 : ℕ) < 200 ∧
    0 < numClasses [(⟨0, 0, 1, 1⟩, [9/10])] ∧
    (∃ r ∈ ([(((⟨0, 0, 1, 1⟩ : Box), [9/10]))] : List (Box × List ℚ)),
      (1/100 : ℚ) ≤ scoreAt r 0) ∧
    0 ∈ (nms_per_class [(⟨0, 0, 1, 1⟩, [9/10])] (9/20) (1/100) 200).2 := by
  refine ⟨by norm_num, by norm_num [numClasses], ?_, ?_⟩
  · exact ⟨(⟨0, 0, 1, 1⟩, [9/10]), by simp, by norm_num [scoreAt]⟩
  · exact nms_per_class_all_classes.1 _ (9/20) (1/100) 200 0 (by norm_num)
      (by norm_num [numClasses])
      ⟨(⟨0, 0, 1, 1⟩, [9/10]), by simp, by norm_num [scoreAt]⟩

/-- C9: for every mode string outside `full`/`encoder`/`decoder`,
`CNN_AUTOENCODER` fails at construction time with the descriptive value
error `Invalid mode.`, before any model is built; for every valid mode a
model is returned and no error is raised. -/
theorem cnn_autoencoder_mode_validation :
    (∀ (input_shape : List ℕ) (latent : ℕ) (mode : String),
      mode ∉ ["full", "encoder", "decoder"] →
      CNN_AUTOENCODER input_shape latent mode = Except.error "Invalid mode.") ∧
    (∀ (input_shape : List ℕ) (latent : ℕ) (mode : String),
      mode ∈ ["full", "encoder", "decoder"] →
      ∃ m, CNN_AUTOENCODER input_shape latent mode = Except.ok m) := by
  constructor
  · intro s l mode hmode
    simp [CNN_AUTOENCODER, hmode]
  · intro s l mode hmode
    unfold CNN_AUTOENCODER
    rw [if_neg (not_not_intro hmode)]
    by_cases h1 : mode = "encoder"
    · rw [if_pos h1]
      exact ⟨_, rfl⟩
    · rw [if_neg h1]
      by_cases h2 : mode = "decoder"
      · rw [if_pos h2]
        exact ⟨_, rfl⟩
      · rw [if_neg h2]
        exact ⟨_, rfl⟩

/-- Witness for `cnn_autoencoder_mode_validation`: the invalid mode string
`banana` is rejected with the value error, and the valid mode `full` builds
a model. -/
theorem cnn_autoencoder_mode_validation_witness :
    ("banana" ∉ ["full", "encoder", "decoder"]) ∧
    CNN_AUTOENCODER [32, 32, 3] 128 "banana" = Except.error "Invalid mode." ∧
    ("full" ∈ ["full", "encoder", "decoder"]) ∧
    ∃ m, CNN_AUTOENCODER [32, 32, 3] 128 "full" = Except.ok m := by
  refine ⟨by simp, ?_, by simp, ?_⟩
  · exact cnn_autoencoder_mode_validation.1 _ _ _ (by simp)
  · exact cnn_autoencoder_mode_validation.2 _ _ _ (by simp)
